import Mathlib

/-!
Verification of the protocolpro layout-and-rendering engine
(`src/protocolpro.py`, class `Protocol`) against its natural-language
specification.  The Python code is shallowly embedded: each method is
translated into a pure Lean function; the in-place mutation that
`_process_field_list` performs on `self.field_list` is made explicit by
returning the mutated list alongside the placed-field list.  Python's
unbounded non-negative integers are modelled as `Nat`; the single place
where a Python value can be `-1` (the `end` offset of a zero-length
field) is modelled as `Int`.
-/

set_option maxRecDepth 100000

namespace ProtocolPro

/-- A protocol field as parsed from the spec string: one entry of
`self.field_list`, a dict with keys `text` and `len`. -/
structure Field where
  text : String
  len : Nat
deriving DecidableEq, Repr

/-- A placed field as produced by `Protocol._process_field_list`: the
dict augmented with keys `start`, `end` (here `endBit`), `line`, `MF`.
`MF = true` marks a fragment whose remainder continues on the next
line. -/
structure PlacedField where
  text : String
  len : Nat
  start : Nat
  endBit : Int
  line : Nat
  MF : Bool
deriving DecidableEq, Repr

/-- One loop iteration state of `Protocol._process_field_list`, written as
fuel-based recursion (the Python `while` loop re-examines the head field
after a split, shrinking its `len`, so each iteration strictly decreases
`total remaining bits + number of remaining fields` whenever
`bits_in_line < bits_per_line`).  Returns the placed list (`new_fields`)
together with the post-loop contents of `self.field_list` restricted to
the keys the code ever reads again (`text` and `len`): the Python loop
mutates the field dicts in place (`field['text'] = ""` /
`field['len'] -= available`), and those dicts stay inside
`self.field_list`. -/
def processAux (bpl : Nat) : Nat → List Field → Nat → Nat → List PlacedField × List Field
  | 0, fields, _, _ => ([], fields)
  | _ + 1, [], _, _ => ([], [])
  | fuel + 1, f :: rest, bits_in_line, text_line =>
    let available_in_line := bpl - bits_in_line
    if f.len ≤ available_in_line then
      -- enough space on this line: keep the field as it is
      let placed : PlacedField :=
        ⟨f.text, f.len, bits_in_line, (bits_in_line : Int) + (f.len : Int) - 1, text_line, false⟩
      if bits_in_line + f.len = bpl then
        let next := processAux bpl fuel rest 0 (text_line + 1)
        (placed :: next.1, f :: next.2)
      else
        let next := processAux bpl fuel rest (bits_in_line + f.len) text_line
        (placed :: next.1, f :: next.2)
    else if bits_in_line = 0 ∧ f.len % bpl = 0 then
      -- Case 1: perfectly aligned, length a multiple of the line length
      let placed : PlacedField := ⟨f.text, f.len, 0, (bpl : Int) - 1, text_line, false⟩
      let next := processAux bpl fuel rest 0 (text_line + 1)
      (placed :: next.1, f :: next.2)
    else
      -- Case 2: split the field into two parts, one blank and one with
      -- the actual field text
      if available_in_line ≥ f.len - available_in_line then
        let frag : PlacedField :=
          ⟨f.text, available_in_line, bits_in_line, (bpl : Int) - 1, text_line, true⟩
        let next :=
          processAux bpl fuel ({ text := "", len := f.len - available_in_line } :: rest) 0 (text_line + 1)
        (frag :: next.1, next.2)
      else
        let frag : PlacedField :=
          ⟨"", available_in_line, bits_in_line, (bpl : Int) - 1, text_line, true⟩
        let next :=
          processAux bpl fuel ({ text := f.text, len := f.len - available_in_line } :: rest) 0 (text_line + 1)
        (frag :: next.1, next.2)

/-- Fuel that suffices for `processAux` whenever `0 < bpl`: every
iteration removes a field or strictly shrinks the head field. -/
def layoutFuel (fields : List Field) : Nat :=
  (fields.map Field.len).sum + fields.length

/-- `Protocol._process_field_list`: the placed-field list computed from
`self.field_list` and `self.bits_per_line`. -/
def process_field_list (fields : List Field) (bpl : Nat) : List PlacedField :=
  (processAux bpl (layoutFuel fields) fields 0 1).1

/-- The contents of `self.field_list` after `_process_field_list` has
run (the Python loop mutates the field dicts in place). -/
def mutated_field_list (fields : List Field) (bpl : Nat) : List Field :=
  (processAux bpl (layoutFuel fields) fields 0 1).2

example :
    mutated_field_list [⟨"a", 20⟩, ⟨"b", 20⟩] 32 = [⟨"a", 20⟩, ⟨"", 8⟩] := by
  decide

example :
    process_field_list [⟨"a", 16⟩, ⟨"b", 16⟩, ⟨"c", 32⟩] 32 =
      [⟨"a", 16, 0, 15, 1, false⟩, ⟨"b", 16, 16, 31, 1, false⟩, ⟨"c", 32, 0, 31, 2, false⟩] := by
  decide

/-- Total number of bits that the placed fields assign to row `r`. -/
def rowSum (P : List PlacedField) (r : Nat) : Nat :=
  (P.map (fun p => if p.line = r then p.len else 0)).sum

/-- Largest row index used by a placed-field list (`0` when empty). -/
def maxLine (P : List PlacedField) : Nat :=
  (P.map PlacedField.line).foldr max 0

/-- Group a placed-field list into the runs of fragments that came from a
single original field: a fragment with `MF = true` is continued by the
entry that follows it, a fragment with `MF = false` closes its run. -/
def fragGroups : List PlacedField → List (List PlacedField)
  | [] => []
  | p :: rest =>
    if p.MF then
      match fragGroups rest with
      | [] => [[p]]
      | g :: gs => (p :: g) :: gs
    else [p] :: fragGroups rest

/-- Total bit length of each fragment group, in order. -/
def groupLens (P : List PlacedField) : List Nat :=
  (fragGroups P).map (fun g => (g.map PlacedField.len).sum)

theorem rowSum_nil (r : Nat) : rowSum [] r = 0 := rfl

theorem rowSum_cons (p : PlacedField) (P : List PlacedField) (r : Nat) :
    rowSum (p :: P) r = (if p.line = r then p.len else 0) + rowSum P r := rfl

theorem maxLine_cons (p : PlacedField) (P : List PlacedField) :
    maxLine (p :: P) = max p.line (maxLine P) := rfl

theorem rowSum_eq_zero_of_forall_lt {P : List PlacedField} {r : Nat}
    (h : ∀ p ∈ P, r < p.line) : rowSum P r = 0 := by
  induction P with
  | nil => rfl
  | cons p P ih =>
    rw [rowSum_cons, if_neg, ih]
    · exact fun q hq => h q (List.mem_cons_of_mem p hq)
    · exact fun hline => absurd hline (by have := h p (List.mem_cons_self p P); omega)

/-! Step equations for `processAux`, one per branch of the Python loop. -/

theorem processAux_fits_full {bpl : Nat} (fuel : Nat) {f : Field} (rest : List Field)
    {b : Nat} (t : Nat) (h1 : f.len ≤ bpl - b) (h2 : b + f.len = bpl) :
    processAux bpl (fuel + 1) (f :: rest) b t =
      (⟨f.text, f.len, b, (b : Int) + (f.len : Int) - 1, t, false⟩ ::
          (processAux bpl fuel rest 0 (t + 1)).1,
        f :: (processAux bpl fuel rest 0 (t + 1)).2) := by
  simp only [processAux, if_pos h1, if_pos h2]

theorem processAux_fits_cont {bpl : Nat} (fuel : Nat) {f : Field} (rest : List Field)
    {b : Nat} (t : Nat) (h1 : f.len ≤ bpl - b) (h2 : ¬ b + f.len = bpl) :
    processAux bpl (fuel + 1) (f :: rest) b t =
      (⟨f.text, f.len, b, (b : Int) + (f.len : Int) - 1, t, false⟩ ::
          (processAux bpl fuel rest (b + f.len) t).1,
        f :: (processAux bpl fuel rest (b + f.len) t).2) := by
  simp only [processAux, if_pos h1, if_neg h2]

theorem processAux_block {bpl : Nat} (fuel : Nat) {f : Field} (rest : List Field)
    {b : Nat} (t : Nat) (h1 : ¬ f.len ≤ bpl - b) (h2 : b = 0 ∧ f.len % bpl = 0) :
    processAux bpl (fuel + 1) (f :: rest) b t =
      (⟨f.text, f.len, 0, (bpl : Int) - 1, t, false⟩ ::
          (processAux bpl fuel rest 0 (t + 1)).1,
        f :: (processAux bpl fuel rest 0 (t + 1)).2) := by
  simp only [processAux, if_neg h1, if_pos h2]

theorem processAux_split_here {bpl : Nat} (fuel : Nat) {f : Field} (rest : List Field)
    {b : Nat} (t : Nat) (h1 : ¬ f.len ≤ bpl - b) (h2 : ¬ (b = 0 ∧ f.len % bpl = 0))
    (h3 : bpl - b ≥ f.len - (bpl - b)) :
    processAux bpl (fuel + 1) (f :: rest) b t =
      (⟨f.text, bpl - b, b, (bpl : Int) - 1, t, true⟩ ::
          (processAux bpl fuel ({ text := "", len := f.len - (bpl - b) } :: rest) 0 (t + 1)).1,
        (processAux bpl fuel ({ text := "", len := f.len - (bpl - b) } :: rest) 0 (t + 1)).2) := by
  simp only [processAux, if_neg h1, if_neg h2, if_pos h3]

theorem processAux_split_next {bpl : Nat} (fuel : Nat) {f : Field} (rest : List Field)
    {b : Nat} (t : Nat) (h1 : ¬ f.len ≤ bpl - b) (h2 : ¬ (b = 0 ∧ f.len % bpl = 0))
    (h3 : ¬ bpl - b ≥ f.len - (bpl - b)) :
    processAux bpl (fuel + 1) (f :: rest) b t =
      (⟨"", bpl - b, b, (bpl : Int) - 1, t, true⟩ ::
          (processAux bpl fuel ({ text := f.text, len := f.len - (bpl - b) } :: rest) 0 (t + 1)).1,
        (processAux bpl fuel ({ text := f.text, len := f.len - (bpl - b) } :: rest) 0 (t + 1)).2) := by
  simp only [processAux, if_neg h1, if_neg h2, if_neg h3]

/-- With at least one unit of fuel, a non-empty field list always yields at
least one placed field. -/
theorem processAux_fst_ne_nil (bpl fuel : Nat) (f : Field) (rest : List Field) (b t : Nat) :
    (processAux bpl (fuel + 1) (f :: rest) b t).1 ≠ [] := by
  by_cases h1 : f.len ≤ bpl - b
  · by_cases h2 : b + f.len = bpl
    · rw [processAux_fits_full fuel rest t h1 h2]; simp
    · rw [processAux_fits_cont fuel rest t h1 h2]; simp
  · by_cases h2 : b = 0 ∧ f.len % bpl = 0
    · rw [processAux_block fuel rest t h1 h2]; simp
    · by_cases h3 : bpl - b ≥ f.len - (bpl - b)
      · rw [processAux_split_here fuel rest t h1 h2 h3]; simp
      · rw [processAux_split_next fuel rest t h1 h2 h3]; simp

theorem fragGroups_ne_nil {P : List PlacedField} (h : P ≠ []) : fragGroups P ≠ [] := by
  match P with
  | p :: rest =>
    rw [fragGroups]
    split
    · match fragGroups rest with
      | [] => simp
      | g :: gs => simp
    · simp

theorem layoutFuel_cons (f : Field) (rest : List Field) :
    layoutFuel (f :: rest) = f.len + layoutFuel rest + 1 := by
  simp [layoutFuel]
  omega

theorem rowSum_cons_mk (text : String) (len start : Nat) (endB : Int) (ℓ : Nat) (mf : Bool)
    (P : List PlacedField) (r : Nat) :
    rowSum (⟨text, len, start, endB, ℓ, mf⟩ :: P) r = (if ℓ = r then len else 0) + rowSum P r :=
  rfl

theorem maxLine_cons_mk (text : String) (len start : Nat) (endB : Int) (ℓ : Nat) (mf : Bool)
    (P : List PlacedField) :
    maxLine (⟨text, len, start, endB, ℓ, mf⟩ :: P) = max ℓ (maxLine P) :=
  rfl

/-- Main layout invariant, proved by induction on the fuel.  For a state
`(fields, bits_in_line, text_line)` of the loop with `bits_in_line < bpl`
and enough fuel, and no field long enough to trigger the exact-multiple
block branch: every placed field lands on row `text_line` or later, row
`text_line` receives at most `bpl - bits_in_line` further bits, later
rows receive at most `bpl` bits, and every row strictly before the last
row is filled exactly. -/
theorem processAux_row_invariant (bpl : Nat) (hbpl : 0 < bpl) :
    ∀ (fuel : Nat) (fields : List Field) (b t : Nat),
      b < bpl → layoutFuel fields ≤ fuel → (∀ f ∈ fields, f.len < 2 * bpl) →
      (∀ p ∈ (processAux bpl fuel fields b t).1, t ≤ p.line) ∧
      rowSum (processAux bpl fuel fields b t).1 t + b ≤ bpl ∧
      (∀ r, t < r → rowSum (processAux bpl fuel fields b t).1 r ≤ bpl) ∧
      (∀ r, t ≤ r → r < maxLine (processAux bpl fuel fields b t).1 →
        rowSum (processAux bpl fuel fields b t).1 r + (if r = t then b else 0) = bpl) := by
  intro fuel
  induction fuel with
  | zero =>
    intro fields b t hb _ _
    refine ⟨?_, ?_, ?_, ?_⟩
    · intro p hp; simp [processAux] at hp
    · simp [processAux, rowSum]; omega
    · intro r _; simp [processAux, rowSum]
    · intro r _ hr; simp [processAux, maxLine] at hr
  | succ fuel ih =>
    intro fields b t hb hfuel hsmall
    cases fields with
    | nil =>
      refine ⟨?_, ?_, ?_, ?_⟩
      · intro p hp; simp [processAux] at hp
      · simp [processAux, rowSum]; omega
      · intro r _; simp [processAux, rowSum]
      · intro r _ hr; simp [processAux, maxLine] at hr
    | cons f rest =>
      have hfr : f.len < 2 * bpl := hsmall f (List.mem_cons_self f rest)
      have hrest : ∀ g ∈ rest, g.len < 2 * bpl := fun g hg => hsmall g (List.mem_cons_of_mem f hg)
      have hfuelc : f.len + layoutFuel rest + 1 ≤ fuel + 1 := by
        rw [layoutFuel_cons] at hfuel; exact hfuel
      by_cases h1 : f.len ≤ bpl - b
      · by_cases h2 : b + f.len = bpl
        · -- the field fits and exactly fills the line
          simp only [processAux_fits_full fuel rest t h1 h2]
          obtain ⟨ih1, ih2, ih3, ih4⟩ := ih rest 0 (t + 1) hbpl (by omega) hrest
          have hz : rowSum (processAux bpl fuel rest 0 (t + 1)).1 t = 0 :=
            rowSum_eq_zero_of_forall_lt (fun p hp => by have := ih1 p hp; omega)
          refine ⟨?_, ?_, ?_, ?_⟩
          · intro p hp
            rcases List.mem_cons.mp hp with h | h
            · subst h; exact le_rfl
            · have := ih1 p h; omega
          · rw [rowSum_cons_mk, if_pos rfl, hz]; omega
          · intro r hr
            rw [rowSum_cons_mk, if_neg (by omega : ¬ t = r)]
            by_cases hr1 : r = t + 1
            · subst hr1; have := ih2; omega
            · have := ih3 r (by omega); omega
          · intro r hrt hrmax
            rw [maxLine_cons_mk] at hrmax
            rw [rowSum_cons_mk]
            by_cases hrt' : r = t
            · subst hrt'
              rw [if_pos rfl, if_pos rfl, hz]; omega
            · rw [if_neg (fun hh => hrt' hh.symm), if_neg hrt']
              have hrM : r < maxLine (processAux bpl fuel rest 0 (t + 1)).1 := by
                rcases lt_max_iff.mp hrmax with h | h
                · omega
                · exact h
              have h4 := ih4 r (by omega) hrM
              simp only [ite_self] at h4
              omega
        · -- the field fits with space left over
          have hb' : b + f.len < bpl := by omega
          simp only [processAux_fits_cont fuel rest t h1 h2]
          obtain ⟨ih1, ih2, ih3, ih4⟩ := ih rest (b + f.len) t hb' (by omega) hrest
          refine ⟨?_, ?_, ?_, ?_⟩
          · intro p hp
            rcases List.mem_cons.mp hp with h | h
            · subst h; exact le_rfl
            · exact ih1 p h
          · rw [rowSum_cons_mk, if_pos rfl]; omega
          · intro r hr
            rw [rowSum_cons_mk, if_neg (by omega : ¬ t = r)]
            have := ih3 r hr; omega
          · intro r hrt hrmax
            rw [maxLine_cons_mk] at hrmax
            rw [rowSum_cons_mk]
            by_cases hrt' : r = t
            · subst hrt'
              rw [if_pos rfl, if_pos rfl]
              have hrM : r < maxLine (processAux bpl fuel rest (b + f.len) r).1 := by
                rcases lt_max_iff.mp hrmax with h | h
                · omega
                · exact h
              have h4 := ih4 r le_rfl hrM
              rw [if_pos rfl] at h4
              omega
            · rw [if_neg (fun hh => hrt' hh.symm), if_neg hrt']
              have hrM : r < maxLine (processAux bpl fuel rest (b + f.len) t).1 := by
                rcases lt_max_iff.mp hrmax with h | h
                · omega
                · exact h
              have h4 := ih4 r (by omega) hrM
              rw [if_neg hrt'] at h4
              omega
      · by_cases h2 : b = 0 ∧ f.len % bpl = 0
        · -- block branch: impossible when every field is shorter than 2·bpl
          exfalso
          rcases h2 with ⟨hb0, hmod⟩
          obtain ⟨k, hk⟩ := Nat.dvd_of_mod_eq_zero hmod
          rw [hb0] at h1
          have hlt : bpl < f.len := by omega
          rw [hk] at hlt hfr
          have hk1 : (1 : Nat) < k := Nat.lt_of_mul_lt_mul_left (by omega : bpl * 1 < bpl * k)
          have hk2 : k < 2 := Nat.lt_of_mul_lt_mul_left (by omega : bpl * k < bpl * 2)
          omega
        · -- split branch
          have hA1 : 1 ≤ bpl - b := by omega
          have hAf : bpl - b < f.len := by omega
          by_cases h3 : bpl - b ≥ f.len - (bpl - b)
          · simp only [processAux_split_here fuel rest t h1 h2 h3]
            have hfuel' :
                layoutFuel ({ text := "", len := f.len - (bpl - b) } :: rest) ≤ fuel := by
              rw [layoutFuel_cons]
              show f.len - (bpl - b) + layoutFuel rest + 1 ≤ fuel
              omega
            obtain ⟨ih1, ih2, ih3, ih4⟩ :=
              ih ({ text := "", len := f.len - (bpl - b) } :: rest) 0 (t + 1) hbpl hfuel' (by
                intro g hg
                rcases List.mem_cons.mp hg with h | h
                · rw [h]; show f.len - (bpl - b) < 2 * bpl; omega
                · exact hrest g h)
            have hz :
                rowSum (processAux bpl fuel
                  ({ text := "", len := f.len - (bpl - b) } :: rest) 0 (t + 1)).1 t = 0 :=
              rowSum_eq_zero_of_forall_lt (fun p hp => by have := ih1 p hp; omega)
            refine ⟨?_, ?_, ?_, ?_⟩
            · intro p hp
              rcases List.mem_cons.mp hp with h | h
              · subst h; exact le_rfl
              · have := ih1 p h; omega
            · rw [rowSum_cons_mk, if_pos rfl, hz]; omega
            · intro r hr
              rw [rowSum_cons_mk, if_neg (by omega : ¬ t = r)]
              by_cases hr1 : r = t + 1
              · subst hr1; have := ih2; omega
              · have := ih3 r (by omega); omega
            · intro r hrt hrmax
              rw [maxLine_cons_mk] at hrmax
              rw [rowSum_cons_mk]
              by_cases hrt' : r = t
              · subst hrt'
                rw [if_pos rfl, if_pos rfl, hz]; omega
              · rw [if_neg (fun hh => hrt' hh.symm), if_neg hrt']
                have hrM : r < maxLine (processAux bpl fuel
                    ({ text := "", len := f.len - (bpl - b) } :: rest) 0 (t + 1)).1 := by
                  rcases lt_max_iff.mp hrmax with h | h
                  · omega
                  · exact h
                have h4 := ih4 r (by omega) hrM
                simp only [ite_self] at h4
                omega
          · simp only [processAux_split_next fuel rest t h1 h2 h3]
            have hfuel' :
                layoutFuel ({ text := f.text, len := f.len - (bpl - b) } :: rest) ≤ fuel := by
              rw [layoutFuel_cons]
              show f.len - (bpl - b) + layoutFuel rest + 1 ≤ fuel
              omega
            obtain ⟨ih1, ih2, ih3, ih4⟩ :=
              ih ({ text := f.text, len := f.len - (bpl - b) } :: rest) 0 (t + 1) hbpl hfuel' (by
                intro g hg
                rcases List.mem_cons.mp hg with h | h
                · rw [h]; show f.len - (bpl - b) < 2 * bpl; omega
                · exact hrest g h)
            have hz :
                rowSum (processAux bpl fuel
                  ({ text := f.text, len := f.len - (bpl - b) } :: rest) 0 (t + 1)).1 t = 0 :=
              rowSum_eq_zero_of_forall_lt (fun p hp => by have := ih1 p hp; omega)
            refine ⟨?_, ?_, ?_, ?_⟩
            · intro p hp
              rcases List.mem_cons.mp hp with h | h
              · subst h; exact le_rfl
              · have := ih1 p h; omega
            · rw [rowSum_cons_mk, if_pos rfl, hz]; omega
            · intro r hr
              rw [rowSum_cons_mk, if_neg (by omega : ¬ t = r)]
              by_cases hr1 : r = t + 1
              · subst hr1; have := ih2; omega
              · have := ih3 r (by omega); omega
            · intro r hrt hrmax
              rw [maxLine_cons_mk] at hrmax
              rw [rowSum_cons_mk]
              by_cases hrt' : r = t
              · subst hrt'
                rw [if_pos rfl, if_pos rfl, hz]; omega
              · rw [if_neg (fun hh => hrt' hh.symm), if_neg hrt']
                have hrM : r < maxLine (processAux bpl fuel
                    ({ text := f.text, len := f.len - (bpl - b) } :: rest) 0 (t + 1)).1 := by
                  rcases lt_max_iff.mp hrmax with h | h
                  · omega
                  · exact h
                have h4 := ih4 r (by omega) hrM
                simp only [ite_self] at h4
                omega

theorem fragGroups_cons_of_not_mf (text : String) (len start : Nat) (endB : Int) (ℓ : Nat)
    (P : List PlacedField) :
    fragGroups (⟨text, len, start, endB, ℓ, false⟩ :: P) =
      [⟨text, len, start, endB, ℓ, false⟩] :: fragGroups P :=
  rfl

theorem fragGroups_cons_of_mf (text : String) (len start : Nat) (endB : Int) (ℓ : Nat)
    {P : List PlacedField} {g : List PlacedField} {gs : List (List PlacedField)}
    (hP : fragGroups P = g :: gs) :
    fragGroups (⟨text, len, start, endB, ℓ, true⟩ :: P) =
      (⟨text, len, start, endB, ℓ, true⟩ :: g) :: gs := by
  rw [fragGroups, if_pos rfl, hP]

theorem groupLens_cons_of_not_mf (text : String) (len start : Nat) (endB : Int) (ℓ : Nat)
    (P : List PlacedField) :
    groupLens (⟨text, len, start, endB, ℓ, false⟩ :: P) = len :: groupLens P := by
  unfold groupLens
  rw [fragGroups_cons_of_not_mf]
  simp

theorem groupLens_cons_of_mf (text : String) (len start : Nat) (endB : Int) (ℓ : Nat)
    {P : List PlacedField} {x : Nat} {xs : List Nat}
    (hP : groupLens P = x :: xs) :
    groupLens (⟨text, len, start, endB, ℓ, true⟩ :: P) = (len + x) :: xs := by
  unfold groupLens at hP ⊢
  cases hfg : fragGroups P with
  | nil => rw [hfg] at hP; simp at hP
  | cons g gs =>
    rw [hfg] at hP
    simp only [List.map_cons, List.cons.injEq] at hP
    rw [fragGroups_cons_of_mf _ _ _ _ _ hfg]
    simp [hP.1, hP.2]

/-- For any loop state with `bits_in_line < bpl` and enough fuel, the
total bit length of consecutive fragments belonging to one original field
(grouped via the `MF` continuation flag) is exactly that field's current
bit length. -/
theorem processAux_groupLens (bpl : Nat) (hbpl : 0 < bpl) :
    ∀ (fuel : Nat) (fields : List Field) (b t : Nat),
      b < bpl → layoutFuel fields ≤ fuel →
      groupLens (processAux bpl fuel fields b t).1 = fields.map Field.len := by
  intro fuel
  induction fuel with
  | zero =>
    intro fields b t _ hfuel
    cases fields with
    | nil => rfl
    | cons f rest => rw [layoutFuel_cons] at hfuel; omega
  | succ fuel ih =>
    intro fields b t hb hfuel
    cases fields with
    | nil => rfl
    | cons f rest =>
      have hfuelc : f.len + layoutFuel rest + 1 ≤ fuel + 1 := by
        rw [layoutFuel_cons] at hfuel; exact hfuel
      by_cases h1 : f.len ≤ bpl - b
      · by_cases h2 : b + f.len = bpl
        · simp only [processAux_fits_full fuel rest t h1 h2]
          rw [groupLens_cons_of_not_mf, ih rest 0 (t + 1) hbpl (by omega), List.map_cons]
        · simp only [processAux_fits_cont fuel rest t h1 h2]
          have hb' : b + f.len < bpl := by omega
          rw [groupLens_cons_of_not_mf, ih rest (b + f.len) t hb' (by omega), List.map_cons]
      · by_cases h2 : b = 0 ∧ f.len % bpl = 0
        · simp only [processAux_block fuel rest t h1 h2]
          rw [groupLens_cons_of_not_mf, ih rest 0 (t + 1) hbpl (by omega), List.map_cons]
        · have hA1 : 1 ≤ bpl - b := by omega
          have hAf : bpl - b < f.len := by omega
          by_cases h3 : bpl - b ≥ f.len - (bpl - b)
          · simp only [processAux_split_here fuel rest t h1 h2 h3]
            have hfuel' :
                layoutFuel ({ text := "", len := f.len - (bpl - b) } :: rest) ≤ fuel := by
              rw [layoutFuel_cons]
              show f.len - (bpl - b) + layoutFuel rest + 1 ≤ fuel
              omega
            have hrec := ih ({ text := "", len := f.len - (bpl - b) } :: rest) 0 (t + 1) hbpl hfuel'
            rw [List.map_cons] at hrec
            rw [groupLens_cons_of_mf _ _ _ _ _ hrec, List.map_cons]
            have he : bpl - b + Field.len { text := "", len := f.len - (bpl - b) } = f.len := by
              show bpl - b + (f.len - (bpl - b)) = f.len
              omega
            rw [he]
          · simp only [processAux_split_next fuel rest t h1 h2 h3]
            have hfuel' :
                layoutFuel ({ text := f.text, len := f.len - (bpl - b) } :: rest) ≤ fuel := by
              rw [layoutFuel_cons]
              show f.len - (bpl - b) + layoutFuel rest + 1 ≤ fuel
              omega
            have hrec := ih ({ text := f.text, len := f.len - (bpl - b) } :: rest) 0 (t + 1) hbpl hfuel'
            rw [List.map_cons] at hrec
            rw [groupLens_cons_of_mf _ _ _ _ _ hrec, List.map_cons]
            have he : bpl - b + Field.len { text := f.text, len := f.len - (bpl - b) } = f.len := by
              show bpl - b + (f.len - (bpl - b)) = f.len
              omega
            rw [he]

/-- Claim C2, counterexample: for the field list `a:20,b:20` with
`bits_per_line = 32` the claim asserts the 12-bit fragment ending row 1
is unlabeled and the 8-bit fragment starting row 2 carries the label
`b`, i.e. the label sequence `["a", "", "b"]`.  The code instead puts
the label on the 12-bit fragment (because `available = 12 >= 20 - 12`),
producing `["a", "b", ""]`. -/
theorem scenario3_counterexample :
    (process_field_list [⟨"a", 20⟩, ⟨"b", 20⟩] 32).map PlacedField.text ≠ ["a", "", "b"] ∧
    (process_field_list [⟨"a", 20⟩, ⟨"b", 20⟩] 32).map PlacedField.text = ["a", "b", ""] := by
  decide

/-- Claim C2 (amended): for `a:20,b:20` at `bits_per_line = 32`, `a` is
placed whole in row 1; `b` splits into a 12-bit fragment ending row 1
that carries the label `b` and is marked `continues = true`, and an
8-bit unlabeled fragment starting row 2. -/
theorem scenario3_layout :
    process_field_list [⟨"a", 20⟩, ⟨"b", 20⟩] 32 =
      [⟨"a", 20, 0, 19, 1, false⟩, ⟨"b", 12, 20, 31, 1, true⟩, ⟨"", 8, 0, 7, 2, false⟩] := by
  decide

/-- Claim C3: whenever the layout loop splits a field at a row boundary,
exactly one of the two resulting fragments carries the label text, namely
the fragment holding at least half of the bits being split: if
`available >= bit_length - available` the current-row fragment keeps the
label and the remainder is blank, otherwise the remainder keeps the
label and the current-row fragment is blank.  The current-row fragment
is always flagged `MF = true` (continues). -/
theorem split_label_assignment (bpl fuel : Nat) (f : Field) (rest : List Field) (b t : Nat)
    (h1 : ¬ f.len ≤ bpl - b) (h2 : ¬ (b = 0 ∧ f.len % bpl = 0)) :
    ∃ frag : PlacedField, ∃ newf : Field,
      (processAux bpl (fuel + 1) (f :: rest) b t).1 =
        frag :: (processAux bpl fuel (newf :: rest) 0 (t + 1)).1 ∧
      frag.MF = true ∧ frag.len = bpl - b ∧ frag.line = t ∧ frag.start = b ∧
      newf.len = f.len - (bpl - b) ∧
      (if bpl - b ≥ f.len - (bpl - b)
        then frag.text = f.text ∧ newf.text = "" ∧ newf.len ≤ frag.len
        else frag.text = "" ∧ newf.text = f.text ∧ frag.len < newf.len) := by
  by_cases h3 : bpl - b ≥ f.len - (bpl - b)
  · refine ⟨⟨f.text, bpl - b, b, (bpl : Int) - 1, t, true⟩,
      { text := "", len := f.len - (bpl - b) }, ?_, rfl, rfl, rfl, rfl, rfl, ?_⟩
    · rw [processAux_split_here fuel rest t h1 h2 h3]
    · rw [if_pos h3]
      exact ⟨rfl, rfl, h3⟩
  · refine ⟨⟨"", bpl - b, b, (bpl : Int) - 1, t, true⟩,
      { text := f.text, len := f.len - (bpl - b) }, ?_, rfl, rfl, rfl, rfl, rfl, ?_⟩
    · rw [processAux_split_next fuel rest t h1 h2 h3]
    · rw [if_neg h3]
      refine ⟨rfl, rfl, ?_⟩
      show bpl - b < f.len - (bpl - b)
      omega

/-- Witness for C3: the split of `b:20` with 20 bits already in a
32-bit row (available 12, remainder 8; the larger 12-bit current-row
fragment keeps the label). -/
theorem split_label_assignment_witness :
    ∃ frag : PlacedField, ∃ newf : Field,
      (processAux 32 (10 + 1) [⟨"b", 20⟩] 20 1).1 =
        frag :: (processAux 32 10 [newf] 0 (1 + 1)).1 ∧
      frag.MF = true ∧ frag.len = 32 - 20 ∧ frag.line = 1 ∧ frag.start = 20 ∧
      newf.len = 20 - (32 - 20) ∧
      (if 32 - 20 ≥ 20 - (32 - 20)
        then frag.text = "b" ∧ newf.text = "" ∧ newf.len ≤ frag.len
        else frag.text = "" ∧ newf.text = "b" ∧ frag.len < newf.len) :=
  split_label_assignment 32 10 ⟨"b", 20⟩ [] 20 1 (by decide) (by decide)

/-- Claim C4, counterexample: for `a:64,b:8` at `bits_per_line = 32`
(`a` is an exact multiple `k = 2` of the line width, met at the start of
an empty row), the field following the block is assigned row `2`, not
row `1 + k = 3` as the claim states. -/
theorem block_row_advance_counterexample :
    (process_field_list [⟨"a", 64⟩, ⟨"b", 8⟩] 32).map PlacedField.line = [1, 2] ∧
    (process_field_list [⟨"a", 64⟩, ⟨"b", 8⟩] 32).map PlacedField.line ≠ [1, 3] := by
  decide

/-- Claim C4 (amended): a field whose bit length is a (proper) exact
multiple of `bits_per_line`, encountered at the start of an empty row,
is emitted as a single placed record spanning the full row width
(`start = 0`, `end = bits_per_line - 1`, full original length), and the
row counter advances by `1` (not by `k`), so the following field is
assigned row index `1` greater than the block field's row. -/
theorem block_placement (bpl fuel : Nat) (f : Field) (rest : List Field) (t : Nat)
    (h1 : ¬ f.len ≤ bpl) (h2 : f.len % bpl = 0) :
    processAux bpl (fuel + 1) (f :: rest) 0 t =
      (⟨f.text, f.len, 0, (bpl : Int) - 1, t, false⟩ ::
          (processAux bpl fuel rest 0 (t + 1)).1,
        f :: (processAux bpl fuel rest 0 (t + 1)).2) := by
  have h1' : ¬ f.len ≤ bpl - 0 := by simpa using h1
  exact processAux_block fuel rest t h1' ⟨rfl, h2⟩

/-- Witness for C4 (amended): the block `a:64` at `bits_per_line = 32`
followed by `b:8`. -/
theorem block_placement_witness :
    processAux 32 (73 + 1) [⟨"a", 64⟩, ⟨"b", 8⟩] 0 1 =
      (⟨"a", 64, 0, (32 : Int) - 1, 1, false⟩ :: (processAux 32 73 [⟨"b", 8⟩] 0 (1 + 1)).1,
        ⟨"a", 64⟩ :: (processAux 32 73 [⟨"b", 8⟩] 0 (1 + 1)).2) :=
  block_placement 32 73 ⟨"a", 64⟩ [⟨"b", 8⟩] 1 (by decide) (by decide)

/-- Claim C5, counterexample: for the single field `a:64` at
`bits_per_line = 32`, the block branch assigns the whole 64-bit field to
row 1, so that row's placed bits exceed `bits_per_line`, refuting the
claimed bound for arbitrary field lists. -/
theorem row_saturation_counterexample :
    ¬ rowSum (process_field_list [⟨"a", 64⟩] 32) 1 ≤ 32 := by
  decide

/-- Claim C5 (amended): for every field list in which no field can
trigger the exact-multiple block branch (every bit length below
`2 * bits_per_line`) and every positive `bits_per_line`, each row
receives at most `bits_per_line` placed bits, and every row strictly
before the last receives exactly `bits_per_line`. -/
theorem row_saturation (fields : List Field) (bpl : Nat) (hbpl : 0 < bpl)
    (hsmall : ∀ f ∈ fields, f.len < 2 * bpl) :
    (∀ r, rowSum (process_field_list fields bpl) r ≤ bpl) ∧
    (∀ r, 1 ≤ r → r < maxLine (process_field_list fields bpl) →
      rowSum (process_field_list fields bpl) r = bpl) := by
  obtain ⟨h1, h2, h3, h4⟩ :=
    processAux_row_invariant bpl hbpl (layoutFuel fields) fields 0 1 hbpl le_rfl hsmall
  simp only [process_field_list]
  constructor
  · intro r
    by_cases hr0 : r = 0
    · subst hr0
      rw [rowSum_eq_zero_of_forall_lt (fun p hp => by have := h1 p hp; omega)]
      omega
    · by_cases hr1 : r = 1
      · subst hr1; omega
      · exact h3 r (by omega)
  · intro r hr1 hrm
    have h := h4 r hr1 hrm
    simp only [ite_self] at h
    omega

/-- Witness for C5 (amended): row 1 of the layout of `a:20,b:20` at 32
bits per line holds at most 32 bits. -/
theorem row_saturation_witness :
    rowSum (process_field_list [⟨"a", 20⟩, ⟨"b", 20⟩] 32) 1 ≤ 32 :=
  (row_saturation [⟨"a", 20⟩, ⟨"b", 20⟩] 32 (by decide) (by decide)).1 1

/-- Claim C6: for every field list and every positive `bits_per_line`,
summing the bit lengths of the placed fragments derived from one
original field (consecutive output records grouped by the `MF`
continuation flag) yields exactly that field's original bit length,
field by field. -/
theorem length_round_trip (fields : List Field) (bpl : Nat) (hbpl : 0 < bpl) :
    groupLens (process_field_list fields bpl) = fields.map Field.len :=
  processAux_groupLens bpl hbpl (layoutFuel fields) fields 0 1 hbpl le_rfl

/-- Witness for C6: the layout of `a:20,b:20,c:64` at 32 bits per line
(one whole field, one two-way split, one block) re-sums to the original
lengths. -/
theorem length_round_trip_witness :
    groupLens (process_field_list [⟨"a", 20⟩, ⟨"b", 20⟩, ⟨"c", 64⟩] 32) = [20, 20, 64] := by
  have h := length_round_trip [⟨"a", 20⟩, ⟨"b", 20⟩, ⟨"c", 64⟩] 32 (by decide)
  simpa using h

/-!  The Spec Parser (`Protocol.parse_spec`).  Python's `str.split(sep)`
with a one-character separator is embedded structurally over the
character list; `str.lower` is embedded with `Char.toLower`, which lowers
exactly the basic-latin letters (all recognized option keys and values
are ASCII); `int(str)` is embedded for optional surrounding ASCII
whitespace, an optional sign, and an ASCII digit run with single
underscores between digits (Unicode digits and Unicode whitespace are
not modelled). -/

/-- Python `str.split(sep)` over a character list, for a one-character
separator: no merging of adjacent separators, an empty input gives one
empty part. -/
def pySplitChar (sep : Char) : List Char → List (List Char)
  | [] => [[]]
  | c :: rest =>
    if c = sep then [] :: pySplitChar sep rest
    else
      match pySplitChar sep rest with
      | [] => [[c]]
      | g :: gs => (c :: g) :: gs

/-- Python `s.split(sep)` for a one-character separator. -/
def pySplit (s : String) (sep : Char) : List String :=
  (pySplitChar sep s.data).map String.mk

/-- Python `str.lower`, restricted to the ASCII range. -/
def pyLower (s : String) : String :=
  String.mk (s.data.map Char.toLower)

/-- The ASCII whitespace characters stripped by Python `int(str)`. -/
def isPySpace (c : Char) : Bool :=
  c == ' ' || c == '\t' || c == '\n' || c == '\r' || c == '\x0B' || c == '\x0C'

/-- Valid continuation of a digit run for Python `int(str)`: digits with
single underscores strictly between digits. -/
def digitRunOk : List Char → Bool
  | [] => true
  | '_' :: c :: rest => c.isDigit && digitRunOk rest
  | c :: rest => c.isDigit && digitRunOk rest

/-- A non-empty digit run (leading underscore not allowed). -/
def pyDigitsOk : List Char → Bool
  | [] => false
  | c :: rest => c.isDigit && digitRunOk rest

/-- Numeric value of a digit run, skipping grouping underscores. -/
def digitsVal (cs : List Char) : Nat :=
  cs.foldl (fun a c => if c = '_' then a else a * 10 + (c.toNat - 48)) 0

/-- Strip leading and trailing Python whitespace. -/
def pyStrip (cs : List Char) : List Char :=
  ((cs.dropWhile isPySpace).reverse.dropWhile isPySpace).reverse

/-- Python `int(str)`: `some` of the parsed integer, `none` when the
string is not an integer literal (ValueError). -/
def pyInt (s : String) : Option Int :=
  match pyStrip s.data with
  | '+' :: rest => if pyDigitsOk rest then some ((digitsVal rest : Nat) : Int) else none
  | '-' :: rest => if pyDigitsOk rest then some (-(digitsVal rest : Int)) else none
  | rest => if pyDigitsOk rest then some ((digitsVal rest : Nat) : Int) else none

example : pyInt ("16") = some 16 := by decide

example : pyInt ("-3") = some (-3) := by decide

example : pyInt ("x") = none := by decide

example : pyInt (" 1_6 ") = some 16 := by decide

example : pyInt ("") = none := by decide

/-- The mutable attributes of a `Protocol` object that `parse_spec` can
read or write, with the defaults set by `__init__`.  The charset flags
`do_ascii`/`do_unicode` are not included: `parse_spec` never touches
them, and the embedding models the default ASCII rendering path. -/
structure ProtoState where
  hdr_char_start : String := "+"
  hdr_char_end : String := "+"
  hdr_char_fill_odd : String := "+"
  hdr_char_fill_even : String := "-"
  hdr_char_sep : String := "|"
  bits_per_line : Nat := 32
  do_print_top_tens : Bool := true
  do_print_top_units : Bool := true
  field_list : List Field := []
deriving DecidableEq, Repr

/-- The `__init__` defaults. -/
def defaultState : ProtoState := {}

/-- Message of the InvalidFieldLength error kind
(`bits` parsed but is `<= 0`). -/
def invalidLengthMsg (spec : String) : String :=
  "FATAL: Fields must be at least one bit long (" ++ spec ++ ")"

/-- Message of the InvalidFieldSyntax error kind (malformed token, or a
`bits` part that `int()` rejects). -/
def invalidFieldListMsg (spec : String) : String :=
  "FATAL: Invalid field_list specification (" ++ spec ++ ")"

/-- Message of the MultipleOptionSeparators error kind. -/
def multipleSeparatorMsg : String :=
  "FATAL: Character '?' may only be used as an option separator."

/-- Message for a non-positive `bits` option value. -/
def invalidBitsValueMsg (value : String) : String :=
  "FATAL: Invalid value for 'bits' option (" ++ value ++ ")"

/-- Message for an unrecognized `numbers` option value. -/
def invalidNumbersValueMsg (value : String) : String :=
  "FATAL: Invalid value for 'numbers' option (" ++ value ++ ")"

/-- Message for a character option value that is not exactly one
character (note: the original-case key is interpolated). -/
def invalidCharOptionMsg (var value : String) : String :=
  "FATAL: Invalid value for '" ++ var ++ "' option (" ++ value ++ ")"

/-- Message of the generic invalid-options error (bad `key=value` shape,
or a `bits` value that `int()` rejects). -/
def invalidOptionsMsg (opt : String) : String :=
  "FATAL: Invalid options specification (" ++ opt ++ ")"

/-- One iteration of the field-parsing loop of `parse_spec`: split the
token on `:`, convert the bits part with `int`, reject non-positive
lengths.  An unpacking failure or `int()` failure lands in the bare
`except` with the field-list message. -/
def parseFieldItem (spec item : String) : Except String Field :=
  match pySplit item ':' with
  | [text, bits] =>
    match pyInt bits with
    | some n => if n ≤ 0 then .error (invalidLengthMsg spec) else .ok ⟨text, n.toNat⟩
    | none => .error (invalidFieldListMsg spec)
  | _ => .error (invalidFieldListMsg spec)

/-- The field-parsing loop: first failing token aborts the parse. -/
def parseFields (spec : String) : List String → Except String (List Field)
  | [] => .ok []
  | item :: rest =>
    match parseFieldItem spec item with
    | .error e => .error e
    | .ok f =>
      match parseFields spec rest with
      | .error e => .error e
      | .ok fs => .ok (f :: fs)

/-- Apply one `key=value` option to the state (dispatch on the lowered
key; unknown keys are silently accepted). -/
def applyKV (st : ProtoState) (var value : String) : Except String ProtoState :=
  if pyLower var = "bits" then
    match pyInt value with
    | none => .error (invalidOptionsMsg (var ++ "=" ++ value))
    | some n =>
      if n ≤ 0 then .error (invalidBitsValueMsg value)
      else .ok { st with bits_per_line := n.toNat }
  else if pyLower var = "numbers" then
    if pyLower value ∈ [("0"), ("n"), ("no"), ("none"), ("false")] then
      .ok { st with do_print_top_tens := false, do_print_top_units := false }
    else if pyLower value ∈ [("1"), ("y"), ("yes"), ("none"), ("true")] then
      .ok { st with do_print_top_tens := true, do_print_top_units := true }
    else .error (invalidNumbersValueMsg value)
  else if pyLower var ∈ [("oddchar"), ("evenchar"), ("startchar"), ("endchar"), ("sepchar")] then
    if value.length > 1 ∨ value.length = 0 then .error (invalidCharOptionMsg var value)
    else if pyLower var = "oddchar" then .ok { st with hdr_char_fill_odd := value }
    else if pyLower var = "evenchar" then .ok { st with hdr_char_fill_even := value }
    else if pyLower var = "startchar" then .ok { st with hdr_char_start := value }
    else if pyLower var = "endchar" then .ok { st with hdr_char_end := value }
    else .ok { st with hdr_char_sep := value }
  else .ok st

/-- Apply one raw option token: split on `=`; a token without exactly
one `=` lands in the bare `except` with the options message. -/
def applyOpt (st : ProtoState) (opt : String) : Except String ProtoState :=
  match pySplit opt '=' with
  | [var, value] => applyKV st var value
  | _ => .error (invalidOptionsMsg opt)

/-- The options loop: first failing option aborts the parse. -/
def parseOpts (st : ProtoState) : List String → Except String ProtoState
  | [] => .ok st
  | opt :: rest =>
    match applyOpt st opt with
    | .error e => .error e
    | .ok st' => parseOpts st' rest

/-- `Protocol.parse_spec` from a fresh `__init__` state: reject more
than one `?`, parse the field list, then apply the options. -/
def parse_spec (spec : String) : Except String ProtoState :=
  match pySplit spec '?' with
  | [fields] =>
    match parseFields spec (pySplit fields ',') with
    | .error e => .error e
    | .ok fl => .ok { defaultState with field_list := fl }
  | [fields, opts] =>
    match parseFields spec (pySplit fields ',') with
    | .error e => .error e
    | .ok fl => parseOpts { defaultState with field_list := fl } (pySplit opts ',')
  | _ => .error multipleSeparatorMsg

example :
    parse_spec ("ver:4,hl:4,len:24") =
      .ok { defaultState with field_list := [⟨"ver", 4⟩, ⟨"hl", 4⟩, ⟨"len", 24⟩] } := by
  rfl

example : parse_spec ("a:8?bits=16") =
    .ok { defaultState with field_list := [⟨"a", 8⟩], bits_per_line := 16 } := by
  rfl

example : parse_spec ("a:8?bits=0") = .error (invalidBitsValueMsg ("0")) := by
  rfl

example : parse_spec ("a:8?x?y") = .error multipleSeparatorMsg := by
  rfl

example : parse_spec ("a") = .error (invalidFieldListMsg ("a")) := by
  rfl

/-- An erroring field token anywhere in the token list makes the whole
field-parsing loop fail. -/
theorem parseFields_error_of_mem (spec : String) {item e : String}
    (herr : parseFieldItem spec item = .error e) :
    ∀ items : List String, item ∈ items → ∃ e2, parseFields spec items = .error e2 := by
  intro items hmem
  induction items with
  | nil => cases hmem
  | cons i rest ih =>
    rcases List.mem_cons.mp hmem with h | h
    · subst h
      exact ⟨e, by simp [parseFields, herr]⟩
    · cases hi : parseFieldItem spec i with
      | error e3 => exact ⟨e3, by simp [parseFields, hi]⟩
      | ok f =>
        obtain ⟨e2, he2⟩ := ih h
        exact ⟨e2, by simp [parseFields, hi, he2]⟩

/-- Claim C8, counterexample: the claim says a non-numeric bits part
fails with the InvalidFieldLength kind, but `int("x")` raises
`ValueError`, which the bare `except` converts into the
InvalidFieldSyntax message ("Invalid field_list specification"), a
different message than the InvalidFieldLength one ("Fields must be at
least one bit long"). -/
theorem non_numeric_bits_counterexample :
    parse_spec ("a:x") = .error (invalidFieldListMsg ("a:x")) ∧
    invalidFieldListMsg ("a:x") ≠ invalidLengthMsg ("a:x") := by
  constructor
  · rfl
  · decide

/-- Claim C8 (amended): for a field token `t:b` with exactly one colon,
a bits part that parses as an integer `<= 0` fails with the
InvalidFieldLength kind, while a bits part that is not an integer at
all fails with the InvalidFieldSyntax kind; in either case the whole
spec is rejected. -/
theorem field_length_error_kinds (spec item t b : String)
    (hsplit : pySplit item ':' = [t, b]) :
    (∀ n : Int, pyInt b = some n → n ≤ 0 →
      parseFieldItem spec item = .error (invalidLengthMsg spec)) ∧
    (pyInt b = none → parseFieldItem spec item = .error (invalidFieldListMsg spec)) ∧
    (∀ items : List String, item ∈ items →
      (pyInt b = none ∨ ∃ n, pyInt b = some n ∧ n ≤ 0) →
      ∃ e, parseFields spec items = .error e) ∧
    (∀ s fieldsPart : String, pySplit s '?' = [fieldsPart] →
      item ∈ pySplit fieldsPart ',' →
      (pyInt b = none ∨ ∃ n, pyInt b = some n ∧ n ≤ 0) →
      ∃ e, parse_spec s = .error e) := by
  have h1 : ∀ (sp : String) (n : Int), pyInt b = some n → n ≤ 0 →
      parseFieldItem sp item = .error (invalidLengthMsg sp) := by
    intro sp n hn hle
    simp [parseFieldItem, hsplit, hn, hle]
  have h2 : ∀ sp : String, pyInt b = none →
      parseFieldItem sp item = .error (invalidFieldListMsg sp) := by
    intro sp hn
    simp [parseFieldItem, hsplit, hn]
  have h3 : ∀ (sp : String) (items : List String), item ∈ items →
      (pyInt b = none ∨ ∃ n, pyInt b = some n ∧ n ≤ 0) →
      ∃ e, parseFields sp items = .error e := by
    intro sp items hmem hbad
    rcases hbad with hb | ⟨n, hn, hle⟩
    · exact parseFields_error_of_mem sp (h2 sp hb) items hmem
    · exact parseFields_error_of_mem sp (h1 sp n hn hle) items hmem
  refine ⟨h1 spec, h2 spec, h3 spec, ?_⟩
  intro s fieldsPart hs hmem hbad
  obtain ⟨e, he⟩ := h3 s (pySplit fieldsPart ',') hmem hbad
  exact ⟨e, by simp [parse_spec, hs, he]⟩

/-- Witness for C8: the zero-length token `a:0` draws the
InvalidFieldLength message. -/
theorem field_length_error_kinds_witness :
    parseFieldItem ("a:0") ("a:0") = .error (invalidLengthMsg ("a:0")) :=
  (field_length_error_kinds ("a:0") ("a:0") ("a") ("0") (by decide)).1 0 (by decide) (by decide)

/-- Claim C9, counterexample: parsing `a:8?numbers=none` succeeds but
leaves both ruler rows DISABLED (the falsy token list is tested first
and contains "none"), whereas the claim says the ambiguity is resolved
as true (both rulers enabled). -/
theorem numbers_none_counterexample :
    (parse_spec ("a:8?numbers=none")).toOption.map
        (fun st => (st.do_print_top_tens, st.do_print_top_units)) ≠ some (true, true) ∧
    (parse_spec ("a:8?numbers=none")).toOption.map
        (fun st => (st.do_print_top_tens, st.do_print_top_units)) = some (false, false) := by
  decide

/-- Claim C9 (amended): `numbers=none` parses successfully and resolves
the duplicated token "none" as FALSE — the falsy branch is checked
first, so both ruler rows are disabled. -/
theorem numbers_none_resolution :
    (∀ st : ProtoState, applyKV st ("numbers") ("none") =
      .ok { st with do_print_top_tens := false, do_print_top_units := false }) ∧
    parse_spec ("a:8?numbers=none") =
      .ok { defaultState with field_list := [⟨"a", 8⟩], do_print_top_tens := false, do_print_top_units := false } := by
  constructor
  · intro st; rfl
  · rfl

theorem toLower_idem (c : Char) : Char.toLower (Char.toLower c) = Char.toLower c := by
  have hdef : ∀ d : Char,
      Char.toLower d = if d.toNat ≥ 65 ∧ d.toNat ≤ 90 then Char.ofNat (d.toNat + 32) else d :=
    fun d => rfl
  by_cases h : c.toNat ≥ 65 ∧ c.toNat ≤ 90
  · rw [hdef c, if_pos h]
    have hv : (c.toNat + 32).isValidChar := Or.inl (by omega)
    have ht : (Char.ofNat (c.toNat + 32)).toNat = c.toNat + 32 := by
      unfold Char.ofNat
      rw [dif_pos hv]
      rfl
    rw [hdef (Char.ofNat (c.toNat + 32)), if_neg (by rw [ht]; omega)]
  · rw [hdef c, if_neg h, hdef c, if_neg h]

theorem pyLower_idem (s : String) : pyLower (pyLower s) = pyLower s := by
  unfold pyLower
  rw [List.map_map]
  exact congrArg String.mk (List.map_congr_left (fun c _ => toLower_idem c))

/-- Claim C10: option parsing is case-insensitive.  (1) Up to the error
message text (the one-character option error interpolates the key in its
original case), applying `key=value` behaves exactly like applying
`lower(key)=value`: same success or failure, and the same resulting
state on success.  (2) The `numbers` value is likewise matched after
lowercasing.  (3) The cited examples hold exactly: `BITS=16` behaves
byte-for-byte like `bits=16` and `numbers=NO` like `numbers=no`. -/
theorem option_key_case_insensitive :
    (∀ (st : ProtoState) (var value : String),
      (applyKV st var value).toOption = (applyKV st (pyLower var) value).toOption) ∧
    (∀ (st : ProtoState) (value : String),
      (applyKV st ("numbers") value).toOption =
        (applyKV st ("numbers") (pyLower value)).toOption) ∧
    (∀ st : ProtoState, applyKV st ("BITS") ("16") = applyKV st ("bits") ("16")) ∧
    (∀ st : ProtoState, applyKV st ("numbers") ("NO") = applyKV st ("numbers") ("no")) := by
  refine ⟨?_, ?_, fun st => rfl, fun st => rfl⟩
  · intro st var value
    simp only [applyKV, pyLower_idem]
    by_cases h1 : pyLower var = "bits"
    · rw [if_pos h1, if_pos h1]
      cases pyInt value with
      | none => rfl
      | some n =>
        by_cases hn : n ≤ 0
        · simp [hn]
        · simp [hn]
    · rw [if_neg h1, if_neg h1]
      by_cases h2 : pyLower var = "numbers"
      · rw [if_pos h2, if_pos h2]
      · rw [if_neg h2, if_neg h2]
        by_cases h3 : pyLower var ∈ [("oddchar"), ("evenchar"), ("startchar"), ("endchar"), ("sepchar")]
        · rw [if_pos h3, if_pos h3]
          by_cases h4 : value.length > 1 ∨ value.length = 0
          · rw [if_pos h4, if_pos h4]
            rfl
          · rw [if_neg h4, if_neg h4]
        · rw [if_neg h3, if_neg h3]
  · intro st value
    have hkey : ∀ (s2 : ProtoState) (v : String), applyKV s2 ("numbers") v =
        (if pyLower v ∈ [("0"), ("n"), ("no"), ("none"), ("false")] then
          Except.ok { s2 with do_print_top_tens := false, do_print_top_units := false }
        else if pyLower v ∈ [("1"), ("y"), ("yes"), ("none"), ("true")] then
          Except.ok { s2 with do_print_top_tens := true, do_print_top_units := true }
        else Except.error (invalidNumbersValueMsg v)) :=
      fun s2 v => rfl
    rw [hkey st value, hkey st (pyLower value), pyLower_idem]
    by_cases h1 : pyLower value ∈ [("0"), ("n"), ("no"), ("none"), ("false")]
    · rw [if_pos h1, if_pos h1]
    · rw [if_neg h1, if_neg h1]
      by_cases h2 : pyLower value ∈ [("1"), ("y"), ("yes"), ("none"), ("true")]
      · rw [if_pos h2, if_pos h2]
      · rw [if_neg h2, if_neg h2]
        rfl

/-!  The Renderer: the ASCII (default-charset) path of
`Protocol.__str__` and its helpers.  In ASCII mode `_get_horizontal`
ignores its `textline`, `fields`, `bottom` and `offset` parameters
(they only select Unicode glyphs), so the embedding drops them. -/

/-- A run of `n` spaces. -/
def spaces (n : Nat) : String :=
  String.mk (List.replicate n ' ')

/-- Python `s * n` for strings. -/
def strRepeat (s : String) (n : Nat) : String :=
  String.join (List.replicate n s)

/-- Python `s.ljust(w)` (as used by `"{:<8}".format`). -/
def ljust (s : String) (w : Nat) : String :=
  s ++ spaces (w - s.length)

/-- Python `s.rjust(w)` (as used by `"{:>8}".format`). -/
def rjust (s : String) (w : Nat) : String :=
  spaces (w - s.length) ++ s

/-- Python `str.center(width)` with the default space fill.  CPython
returns the string unchanged when `width <= len(s)` and otherwise pads
with `left = marg / 2 + (marg & width & 1)` spaces on the left and the
remaining `marg - left` spaces on the right. -/
def pyCenter (s : String) (width : Nat) : String :=
  if width ≤ s.length then s
  else
    spaces ((width - s.length) / 2 + (width - s.length &&& width &&& 1)) ++ s ++
      spaces ((width - s.length) - ((width - s.length) / 2 + (width - s.length &&& width &&& 1)))

example : pyCenter ("ab") 3 = " ab" := by decide

example : pyCenter ("a") 4 = " a  " := by decide

example : pyCenter ("abc") 7 = "  abc  " := by decide

example : pyCenter ("ab") 7 = "   ab  " := by decide

/-- Claim C7, counterexample: in the odd-width cell `2*2-1 = 3` the
label `ab` leaves one character of padding, and Python's `str.center`
puts that extra character to the LEFT of the label, not to the right as
the claim states. -/
theorem center_extra_pad_counterexample :
    pyCenter ("ab") 3 = " ab" ∧ pyCenter ("ab") 3 ≠ "ab " := by
  decide

/-- Claim C7 (amended): every renderer cell is `2*len - 1` characters
wide, an odd number, and `str.center` on an odd width puts the extra
padding character (when the total padding is odd) to the LEFT of the
label: the left pad is `ceil(marg/2)` spaces and the right pad
`floor(marg/2)` spaces. -/
theorem center_extra_pad_left (text : String) (len : Nat) (h1 : 1 ≤ len)
    (h2 : text.length ≤ 2 * len - 1) :
    pyCenter text (2 * len - 1) =
      spaces ((2 * len - 1 - text.length + 1) / 2) ++ text ++
        spaces ((2 * len - 1 - text.length) / 2) := by
  unfold pyCenter
  by_cases hfit : 2 * len - 1 ≤ text.length
  · rw [if_pos hfit]
    have hz : 2 * len - 1 - text.length = 0 := by omega
    rw [hz]
    have hs : spaces ((0 + 1) / 2) = "" := rfl
    have hs2 : spaces (0 / 2) = "" := rfl
    rw [hs, String.empty_append, String.append_empty]
  · rw [if_neg hfit]
    have hwodd : (2 * len - 1) &&& 1 = 1 := by
      rw [Nat.and_one_is_mod]
      omega
    have hassoc : (2 * len - 1 - text.length) &&& (2 * len - 1) &&& 1 =
        (2 * len - 1 - text.length) % 2 := by
      rw [Nat.and_assoc, hwodd, Nat.and_one_is_mod]
    rw [hassoc]
    have hleft : (2 * len - 1 - text.length) / 2 + (2 * len - 1 - text.length) % 2 =
        (2 * len - 1 - text.length + 1) / 2 := by
      omega
    have hright : (2 * len - 1 - text.length) -
        ((2 * len - 1 - text.length) / 2 + (2 * len - 1 - text.length) % 2) =
        (2 * len - 1 - text.length) / 2 := by
      omega
    rw [hright, hleft]

/-- Witness for C7 (amended): the two-character label `ab` in the
three-character cell of a 2-bit field gets its extra space on the
left. -/
theorem center_extra_pad_left_witness :
    pyCenter ("ab") (2 * 2 - 1) =
      spaces ((2 * 2 - 1 - ("ab").length + 1) / 2) ++ "ab" ++
        spaces ((2 * 2 - 1 - ("ab").length) / 2) :=
  center_extra_pad_left ("ab") 2 (by decide) (by decide)

/-- `Protocol._get_top_numbers`: the optional bit-tens line (one
16-character cell per group of 8 bit columns, the last cell also
carrying `bits_per_line - 1` right-aligned) followed by the optional
bit-units line; `none` when both are disabled. -/
def get_top_numbers (st : ProtoState) : Option String :=
  let tens :=
    if st.do_print_top_tens then
      " " ++ String.join ((List.range st.bits_per_line).map (fun i =>
        if i % 8 = 0 ∧ i + 8 ≥ st.bits_per_line then
          ljust (toString i) 8 ++ rjust (toString (st.bits_per_line - 1)) 8
        else if i % 8 = 0 then ljust (toString i) 16
        else "")) ++ "\n"
    else ""
  let units :=
    if st.do_print_top_units then
      String.join ((List.range st.bits_per_line).map (fun i => " " ++ toString (i % 8)))
    else ""
  let result := tens ++ units
  if result.length > 0 then some result else none

/-- `Protocol._get_horizontal` in ASCII mode: start glyph, an
even/odd fill pair per interior bit, a final even fill and the end
glyph.  The Python `width=None` default stands for `bits_per_line`; an
explicit non-positive width yields the empty string. -/
def get_horizontal (st : ProtoState) (width : Nat) : String :=
  if width = 0 then ""
  else
    st.hdr_char_start ++ strRepeat (st.hdr_char_fill_even ++ st.hdr_char_fill_odd) (width - 1) ++
      (st.hdr_char_fill_even ++ st.hdr_char_end)

/-- `Protocol._get_separator` in ASCII mode. -/
def get_separator (st : ProtoState) : String :=
  st.hdr_char_sep

/-- The label truncation at the top of the `__str__` loop: a label
longer than its `2*len - 1` cell is cut to the cell width and, when the
cut is longer than one character, its last character is replaced by a
dot. -/
def truncateLabel (text : String) (len : Nat) : String :=
  if text.length > 2 * len - 1 then
    let t := String.mk (text.data.take (2 * len - 1))
    if t.length > 1 then String.mk (t.data.dropLast) ++ "." else t
  else text

/-- The `2k - 1` stacked lines that `__str__` prints for an
exact-multiple block field (rows alternate separator-delimited and
border-delimited; the label is centered in the middle line), followed
by the closing horizontal border (emitted on the loop's last
iteration). -/
def blockLines (st : ProtoState) (text : String) (ltp : Nat) : List String :=
  ((List.range ltp).map (fun i =>
    let startLine := if i % 2 = 1 then st.hdr_char_start else st.hdr_char_sep
    let endLine := if i % 2 = 1 then st.hdr_char_end else st.hdr_char_sep
    if i = ltp / 2 then startLine ++ pyCenter text (2 * st.bits_per_line - 1) ++ endLine
    else startLine ++ spaces (2 * st.bits_per_line - 1) ++ endLine)) ++
    (if ltp = 0 then [] else [get_horizontal st st.bits_per_line])

/-- The field loop of `Protocol.__str__` (ASCII mode): produces the
content and border lines that the loop appends, or `none` where the
Python code would raise (`proto_fields[p+1]` on an `MF` fragment with
no successor, or the `assert False` branch).  State: the placed fields
still to print, `bits_in_line`, the partial `current_line`, and
`fields_done` (with `total` the length of the full placed list). -/
def renderLoop (st : ProtoState) (total : Nat) :
    List PlacedField → Nat → String → Nat → Option (List String)
  | [], _, _, _ => some []
  | field :: rest, bits_in_line, current_line, fields_done =>
    let field_text := truncateLabel field.text field.len
    let field_len := field.len
    if field_len ≤ st.bits_per_line - bits_in_line then
      -- we have space for the whole field in the current line
      let cl := (if bits_in_line = 0 then current_line ++ get_separator st else current_line) ++
        pyCenter field_text (2 * field_len - 1)
      let bits2 := bits_in_line + field_len
      let done2 := fields_done + 1
      if bits2 = st.bits_per_line then
        -- last character in the line: store it, then draw the border,
        -- merging it with the next row when this fragment continues
        let cl2 := cl ++ get_separator st
        if field.MF then
          match rest with
          | [] => none
          | nxt :: _ =>
            if nxt.len > st.bits_per_line - field_len then
              let lineLeft0 := get_horizontal st (st.bits_per_line - field_len)
              let lineLeft := if lineLeft0.length = 0 then st.hdr_char_start else lineLeft0
              let joined :=
                if nxt.len ≥ st.bits_per_line then
                  lineLeft ++ spaces (2 * field_len - 1) ++ st.hdr_char_end
                else
                  lineLeft ++ spaces (2 * (nxt.len - (st.bits_per_line - field_len)) - 1) ++
                    get_horizontal st (st.bits_per_line - nxt.len)
              (renderLoop st total rest 0 "" done2).map (fun ls => cl2 :: joined :: ls)
            else
              (renderLoop st total rest 0 "" done2).map
                (fun ls => cl2 :: get_horizontal st st.bits_per_line :: ls)
        else
          (renderLoop st total rest 0 "" done2).map
            (fun ls => cl2 :: get_horizontal st st.bits_per_line :: ls)
      else if done2 = total then
        -- not at the end of the line but out of fields: wrap up
        let cl2 := cl ++ get_separator st
        (renderLoop st total rest bits2 cl2 done2).map
          (fun ls => cl2 :: get_horizontal st bits2 :: ls)
      else
        -- separator between fields inside the line
        renderLoop st total rest bits2 (cl ++ get_separator st) done2
    else
      if bits_in_line = 0 then
        if field_len % st.bits_per_line = 0 then
          -- multi-line block field; Python computes
          -- `int(((field_len/bits_per_line)*2)-1)` in float arithmetic,
          -- which equals this Nat expression because the division is
          -- exact in this branch
          (renderLoop st total rest 0 current_line (fields_done + 1)).map
            (fun ls => blockLines st field_text ((field_len / st.bits_per_line) * 2 - 1) ++ ls)
        else
          -- the Python loop silently skips such a field (unreachable
          -- for `_process_field_list` output)
          renderLoop st total rest bits_in_line current_line fields_done
      else
        -- Python: assert False
        none

/-- `Protocol.__str__` (ASCII mode): recompute the placed-field list
(observing that `_process_field_list` mutates `self.field_list` in
place), assemble the ruler, the top border and the loop's lines, and
join them with newlines.  Returns the rendered text together with the
post-render contents of `self.field_list`. -/
def protoStr (st : ProtoState) : Option String × List Field :=
  let pm := processAux st.bits_per_line (layoutFuel st.field_list) st.field_list 0 1
  let initLines : List String :=
    (match get_top_numbers st with
      | some numbers => [numbers]
      | none => []) ++ [get_horizontal st st.bits_per_line]
  match renderLoop st pm.1.length pm.1 0 "" 0 with
  | some ls => (some (String.intercalate ("\n") (initLines ++ ls)), pm.2)
  | none => (none, pm.2)

example :
    (protoStr { defaultState with field_list := [⟨"a", 32⟩] }).1 =
      some (" 0               8               16              24            31\n 0 1 2 3 4 5 6 7 0 1 2 3 4 5 6 7 0 1 2 3 4 5 6 7 0 1 2 3 4 5 6 7\n+-+-+-+-+-+-+-+-+-+-+-+-+-+-+-+-+-+-+-+-+-+-+-+-+-+-+-+-+-+-+-+-+\n|                               a                               |\n+-+-+-+-+-+-+-+-+-+-+-+-+-+-+-+-+-+-+-+-+-+-+-+-+-+-+-+-+-+-+-+-+") := by
  decide

example :
    (protoStr { defaultState with field_list := [⟨"a", 20⟩, ⟨"b", 20⟩] }).1 =
      some (" 0               8               16              24            31\n 0 1 2 3 4 5 6 7 0 1 2 3 4 5 6 7 0 1 2 3 4 5 6 7 0 1 2 3 4 5 6 7\n+-+-+-+-+-+-+-+-+-+-+-+-+-+-+-+-+-+-+-+-+-+-+-+-+-+-+-+-+-+-+-+-+\n|                   a                   |           b           |\n+-+-+-+-+-+-+-+-+-+-+-+-+-+-+-+-+-+-+-+-+-+-+-+-+-+-+-+-+-+-+-+-+\n|               |\n+-+-+-+-+-+-+-+-+") := by
  decide

example :
    (protoStr { defaultState with field_list :=
        (protoStr { defaultState with field_list := [⟨"a", 20⟩, ⟨"b", 20⟩] }).2 }).1 =
      some (" 0               8               16              24            31\n 0 1 2 3 4 5 6 7 0 1 2 3 4 5 6 7 0 1 2 3 4 5 6 7 0 1 2 3 4 5 6 7\n+-+-+-+-+-+-+-+-+-+-+-+-+-+-+-+-+-+-+-+-+-+-+-+-+-+-+-+-+-+-+-+-+\n|                   a                   |               |\n+-+-+-+-+-+-+-+-+-+-+-+-+-+-+-+-+-+-+-+-+-+-+-+-+-+-+-+-+") := by
  decide

example :
    (protoStr { defaultState with field_list := [⟨"a", 64⟩] }).1 =
      some (" 0               8               16              24            31\n 0 1 2 3 4 5 6 7 0 1 2 3 4 5 6 7 0 1 2 3 4 5 6 7 0 1 2 3 4 5 6 7\n+-+-+-+-+-+-+-+-+-+-+-+-+-+-+-+-+-+-+-+-+-+-+-+-+-+-+-+-+-+-+-+-+\n|                                                               |\n+                               a                               +\n|                                                               |\n+-+-+-+-+-+-+-+-+-+-+-+-+-+-+-+-+-+-+-+-+-+-+-+-+-+-+-+-+-+-+-+-+") := by
  decide

example :
    (protoStr { defaultState with field_list := [⟨"ab", 2⟩], bits_per_line := 2, do_print_top_tens := false, do_print_top_units := false }).1 =
      some ("+-+-+\n| ab|\n+-+-+") := by
  decide

example :
    (protoStr { defaultState with field_list := [⟨"longlabel", 2⟩], bits_per_line := 8, do_print_top_tens := false, do_print_top_units := false }).1 =
      some ("+-+-+-+-+-+-+-+-+\n|lo.|\n+-+-+") := by
  decide

example :
    (protoStr { defaultState with field_list := [⟨"a", 8⟩, ⟨"b", 56⟩] }).1 =
      some (" 0               8               16              24            31\n 0 1 2 3 4 5 6 7 0 1 2 3 4 5 6 7 0 1 2 3 4 5 6 7 0 1 2 3 4 5 6 7\n+-+-+-+-+-+-+-+-+-+-+-+-+-+-+-+-+-+-+-+-+-+-+-+-+-+-+-+-+-+-+-+-+\n|       a       |                                               |\n+-+-+-+-+-+-+-+-+                                               +\n|                               b                               |\n+-+-+-+-+-+-+-+-+-+-+-+-+-+-+-+-+-+-+-+-+-+-+-+-+-+-+-+-+-+-+-+-+") := by
  decide

/-- Claim C1 (refuted by the code, which contradicts the spec's stated
intent): rendering is NOT idempotent.  `_process_field_list` mutates the
field dicts held in `self.field_list` when it splits a field (it blanks
or shrinks `field['text']`/`field['len']`), so after a first `__str__`
call on `a:20,b:20` the stored field list has become `a:20`, `:8`, and
a second `__str__` call on the same object produces different text. -/
theorem render_not_idempotent :
    ((protoStr { defaultState with field_list := [⟨"a", 20⟩, ⟨"b", 20⟩] }).1).isSome = true ∧
    (protoStr { defaultState with field_list := [⟨"a", 20⟩, ⟨"b", 20⟩] }).2 ≠ [⟨"a", 20⟩, ⟨"b", 20⟩] ∧
    ((protoStr { defaultState with field_list :=
        (protoStr { defaultState with field_list := [⟨"a", 20⟩, ⟨"b", 20⟩] }).2 }).1).isSome = true ∧
    (protoStr { defaultState with field_list := [⟨"a", 20⟩, ⟨"b", 20⟩] }).1 ≠
      (protoStr { defaultState with field_list :=
        (protoStr { defaultState with field_list := [⟨"a", 20⟩, ⟨"b", 20⟩] }).2 }).1 := by
  refine ⟨rfl, by decide, rfl, by decide⟩

end ProtocolPro
